import Mathlib

/-!
Verification of the solar performance-analysis pipeline
(`solar_analysis.py`): multi-file CSV loading, date-keyed inner merge,
centered 30-row rolling mean, exponential budget line, GHI banding,
trailing averages and yearly budget-exceedance counts.

Dates are modelled as integers (day numbers); measurement values as
rationals; the budget line, which the script computes with real-valued
exponentiation, as a real number.
-/

namespace Solar

/-- A row of a PR input table: columns `Date`, `PR`. -/
structure PRRow where
  date : ℤ
  pr : ℚ
deriving DecidableEq

/-- A row of a GHI input table: columns `Date`, `GHI`. -/
structure GHIRow where
  date : ℤ
  ghi : ℚ
deriving DecidableEq

/-- A merged row, columns `Date, GHI, PR` (`merged_data[['Date','GHI','PR']]`). -/
structure MRow where
  date : ℤ
  ghi : ℚ
  pr : ℚ
deriving DecidableEq

/-- `pd.merge(pr_combined, ghi_combined, on='Date', how='inner')`:
for each left (PR) row in order, emit one output row per matching
right (GHI) row, in right-table order. -/
def innerMerge (prs : List PRRow) (ghis : List GHIRow) : List MRow :=
  prs.flatMap fun p =>
    (ghis.filter fun g => g.date = p.date).map fun g => ⟨p.date, g.ghi, p.pr⟩

/-- `pd.concat(data_list, ignore_index=True)`: concatenation of the
per-file tables; `pd.concat` of an empty list raises
`ValueError: No objects to concatenate`. -/
def concatTables (tables : List (List α)) : Except String (List α) :=
  if tables.isEmpty then Except.error "No objects to concatenate"
  else Except.ok tables.flatten

/-- `process_data`: read and concatenate the PR files, then the GHI files,
then inner-merge on `Date`.  `prFiles`/`ghiFiles` are the already-parsed
tables of the files found by `glob` (sorted by path); a nonexistent or
empty directory tree gives the empty file list. -/
def processData (prFiles : List (List PRRow)) (ghiFiles : List (List GHIRow)) :
    Except String (List MRow) := do
  let prs ← concatTables prFiles
  let ghis ← concatTables ghiFiles
  pure (innerMerge prs ghis)

/-- `main`: the CSV snapshot `processed_solar_data.csv` is written only after
`process_data` returns; an exception inside `process_data` aborts the run
with no output artifact. -/
def savedCsv (prFiles : List (List PRRow)) (ghiFiles : List (List GHIRow)) :
    Option (List MRow) :=
  match processData prFiles ghiFiles with
  | Except.ok t => some t
  | Except.error _ => none

/-- `df['PR'].rolling(window=w, center=True).mean()` with the default
`min_periods = w`: pandas' fixed-window indexer uses
`offset = (w-1)/2`, the window for output position `i` is the slice
`[i+1+offset-w, i+1+offset)`, and the mean is defined only where the
full window lies inside the series. -/
def rollingCenteredMean (w : ℕ) (xs : List ℚ) : List (Option ℚ) :=
  (List.range xs.length).map fun i =>
    if w ≤ i + 1 + (w - 1) / 2 ∧ i + 1 + (w - 1) / 2 ≤ xs.length then
      some (((xs.drop (i + 1 + (w - 1) / 2 - w)).take w).sum / (w : ℚ))
    else none

/-- `budget = start_budget * ((1 - annual_degradation) ** years)` with
`start_budget = 73.9`, `annual_degradation = 0.008`; the exponent is a
fractional number of years, so this is real-valued exponentiation. -/
noncomputable def budget (y : ℝ) : ℝ := 73.9 * Real.rpow (1 - 0.008) y

/-- `years_from_start = (Date - start_date_data).dt.days / 365.25`. -/
noncomputable def yearsFromStart (d0 d : ℤ) : ℝ := ((d - d0 : ℤ) : ℝ) / 365.25

/-- `df['budget_line']`: the budget evaluated at the row's elapsed years,
where `d0` is `df['Date'].min()` of the (filtered) series. -/
noncomputable def budgetLine (d0 d : ℤ) : ℝ := budget (yearsFromStart d0 d)

/-- `get_color`: GHI value to scatter color by strict less-than thresholds. -/
def get_color (ghi_value : ℚ) : String :=
  if ghi_value < 2 then "navy"
  else if ghi_value < 4 then "lightblue"
  else if ghi_value < 6 then "orange"
  else "brown"

/-- `get_ghi_range`: color name back to the band label, defaulting to `""`. -/
def get_ghi_range (color : String) : String :=
  if color = "navy" then "<2"
  else if color = "lightblue" then "2-4"
  else if color = "orange" then "4-6"
  else if color = "brown" then ">6"
  else ""

/-- The band a GHI value is plotted under: the label of its color. -/
def ghiBand (g : ℚ) : String := get_ghi_range (get_color g)

/-- A row as seen by the yearly-statistics loop: its calendar year
(`df['Date'].dt.year`), its PR, and its computed budget-line value. -/
structure YRow where
  year : ℤ
  pr : ℚ
  budget : ℚ
deriving DecidableEq

/-- Helper for `Series.unique()`: keep the first occurrence of each value,
in order of appearance. -/
def uniqueAux (seen : List ℤ) : List ℤ → List ℤ
  | [] => []
  | y :: tl => if y ∈ seen then uniqueAux seen tl else y :: uniqueAux (y :: seen) tl

/-- `df['year'].unique()`: the distinct values in first-appearance order. -/
def uniqueList (l : List ℤ) : List ℤ := uniqueAux [] l

/-- The `yearly_stats` dict: for each year of `df['year'].unique()` in
order, the number of that year's rows with `PR > budget_line`
(`(year_data['PR'] > year_data['budget_line']).sum()`).  Python dicts
preserve insertion order, so the dict is this association list. -/
def yearlyStats (rows : List YRow) : List (ℤ × ℕ) :=
  (uniqueList (rows.map (·.year))).map fun y =>
    (y, (rows.filter fun r => r.year = y).countP fun r => r.pr > r.budget)

/-- The order in which `for year, count in yearly_stats.items()` writes the
per-year lines of the statistics text box. -/
def statsYears (rows : List YRow) : List ℤ := (yearlyStats rows).map Prod.fst

/-- `Series.mean()`: the arithmetic mean, `NaN` (here `none`) on an empty
selection. -/
def meanQ (xs : List ℚ) : Option ℚ :=
  if xs.isEmpty then none else some (xs.sum / (xs.length : ℚ))

/-- `df['Date'].max()`: `NaT` (here `none`) on an empty frame. -/
def latestDate : List MRow → Option ℤ
  | [] => none
  | r :: tl =>
    match latestDate tl with
    | none => some r.date
    | some m => some (max r.date m)

/-- `df['Date'].min()`: `NaT` (here `none`) on an empty frame. -/
def minDate : List MRow → Option ℤ
  | [] => none
  | r :: tl =>
    match minDate tl with
    | none => some r.date
    | some m => some (min r.date m)

/-- `df[df['Date'] > (latest_date - timedelta(days=n))]['PR'].mean()`:
the trailing `n`-day average.  On an empty frame `latest_date` is `NaT`,
every comparison with `NaT` is false, and the mean of the empty
selection is `NaN`. -/
def trailingAvg (n : ℤ) (rows : List MRow) : Option ℚ :=
  match latestDate rows with
  | none => meanQ []
  | some l => meanQ ((rows.filter fun r => l - n < r.date).map (·.pr))

/-- The optional date filtering at the top of `create_visualization`:
`df[df['Date'] >= start_date]` then `df[df['Date'] <= end_date]`,
each applied only when the bound is supplied. -/
def dateFilter (rows : List MRow) (s e : Option ℤ) : List MRow :=
  let r1 := match s with
    | some sd => rows.filter fun r => sd ≤ r.date
    | none => rows
  match e with
  | some ed => r1.filter fun r => r.date ≤ ed
  | none => r1

/-- The numeric results `create_visualization` derives from the series:
the rolling 30-row mean column, the minimum date `d0` the budget line is
anchored at, and the three trailing averages.  Filtering is applied
first; every derived value is computed from the filtered frame. -/
structure VizStats where
  pr30 : List (Option ℚ)
  d0 : Option ℤ
  avg7 : Option ℚ
  avg30 : Option ℚ
  avg60 : Option ℚ

/-- The derivation order of `create_visualization`: filter by the optional
date range, then compute the rolling mean, `d0`, and the trailing
statistics on the result. -/
def createVizStats (df : List MRow) (s e : Option ℤ) : VizStats :=
  let f := dateFilter df s e
  { pr30 := rollingCenteredMean 30 (f.map (·.pr))
    d0 := minDate f
    avg7 := trailingAvg 7 f
    avg30 := trailingAvg 30 f
    avg60 := trailingAvg 60 f }

/-- Claim C3: GHI banding is a total, non-overlapping partition of the
non-negative values into the four bands, resolved by less-than tests:
every value lands in exactly one band, the four labels are distinct, and
band 1.999 is below 2, while 2.0, 4.0 and 6.0 fall upward into the
2-4, 4-6 and above-6 bands respectively. -/
theorem ghiBand_partition (g : ℚ) (hg : 0 ≤ g) :
    ((g < 2 ∧ ghiBand g = "<2") ∨ (2 ≤ g ∧ g < 4 ∧ ghiBand g = "2-4") ∨
      (4 ≤ g ∧ g < 6 ∧ ghiBand g = "4-6") ∨ (6 ≤ g ∧ ghiBand g = ">6")) ∧
    (["<2", "2-4", "4-6", ">6"] : List String).Nodup ∧
    ghiBand (1999 / 1000) = "<2" ∧ ghiBand 2 = "2-4" ∧
    ghiBand 4 = "4-6" ∧ ghiBand 6 = ">6" := by
  have e1 : ghiBand (1999 / 1000) = "<2" := by
    have h : (1999 / 1000 : ℚ) < 2 := by norm_num
    simp [ghiBand, get_color, get_ghi_range, h]
  have e2 : ghiBand 2 = "2-4" := by
    have h2 : ¬ ((2 : ℚ) < 2) := by norm_num
    have h4 : (2 : ℚ) < 4 := by norm_num
    simp [ghiBand, get_color, get_ghi_range, h2, h4]
  have e4 : ghiBand 4 = "4-6" := by
    have h2 : ¬ ((4 : ℚ) < 2) := by norm_num
    have h4 : ¬ ((4 : ℚ) < 4) := by norm_num
    have h6 : (4 : ℚ) < 6 := by norm_num
    simp [ghiBand, get_color, get_ghi_range, h2, h4, h6]
  have e6 : ghiBand 6 = ">6" := by
    have h2 : ¬ ((6 : ℚ) < 2) := by norm_num
    have h4 : ¬ ((6 : ℚ) < 4) := by norm_num
    have h6 : ¬ ((6 : ℚ) < 6) := by norm_num
    simp [ghiBand, get_color, get_ghi_range, h2, h4, h6]
  refine ⟨?_, by decide, e1, e2, e4, e6⟩
  rcases lt_or_le g 2 with h2 | h2
  · exact Or.inl ⟨h2, by simp [ghiBand, get_color, get_ghi_range, h2]⟩
  rcases lt_or_le g 4 with h4 | h4
  · exact Or.inr (Or.inl ⟨h2, h4,
      by simp [ghiBand, get_color, get_ghi_range, h4, not_lt.mpr h2]⟩)
  rcases lt_or_le g 6 with h6 | h6
  · exact Or.inr (Or.inr (Or.inl ⟨h4, h6,
      by simp [ghiBand, get_color, get_ghi_range, h6, not_lt.mpr h2, not_lt.mpr h4]⟩))
  · exact Or.inr (Or.inr (Or.inr ⟨h6,
      by simp [ghiBand, get_color, get_ghi_range, not_lt.mpr h2, not_lt.mpr h4,
        not_lt.mpr h6]⟩))

/-- Witness for `ghiBand_partition` at the concrete value 3. -/
theorem ghiBand_partition_w :
    (0 : ℚ) ≤ 3 ∧
    (((3 : ℚ) < 2 ∧ ghiBand 3 = "<2") ∨ ((2 : ℚ) ≤ 3 ∧ (3 : ℚ) < 4 ∧ ghiBand 3 = "2-4") ∨
      ((4 : ℚ) ≤ 3 ∧ (3 : ℚ) < 6 ∧ ghiBand 3 = "4-6") ∨ ((6 : ℚ) ≤ 3 ∧ ghiBand 3 = ">6")) :=
  ⟨by norm_num, (ghiBand_partition 3 (by norm_num)).1⟩

/-- Claim C9: merging is deterministic — identical PR and GHI inputs give
identical merged output, the same rows in the same order. -/
theorem innerMerge_deterministic (prs1 prs2 : List PRRow) (ghis1 ghis2 : List GHIRow)
    (hp : prs1 = prs2) (hg : ghis1 = ghis2) :
    innerMerge prs1 ghis1 = innerMerge prs2 ghis2 := by
  subst hp hg
  rfl

/-- Witness for `innerMerge_deterministic` on a concrete one-row pair. -/
theorem innerMerge_deterministic_w :
    innerMerge [⟨0, 50⟩] [⟨0, 5⟩] = innerMerge [⟨0, 50⟩] [⟨0, 5⟩] :=
  innerMerge_deterministic _ _ _ _ rfl rfl

/-- Claim C10: when either directory tree yields zero matching CSV files
(a nonexistent directory included), `process_data` fails on the
concatenation of an empty table list rather than returning an empty
table, and since this precedes the CSV snapshot, no artifact is
written. -/
theorem processData_no_files_error (prFiles : List (List PRRow))
    (ghiFiles : List (List GHIRow)) (h : prFiles = [] ∨ ghiFiles = []) :
    (∃ msg, processData prFiles ghiFiles = Except.error msg) ∧
    savedCsv prFiles ghiFiles = none := by
  have herr : ∃ msg, processData prFiles ghiFiles = Except.error msg := by
    rcases h with h | h
    · subst h
      exact ⟨"No objects to concatenate", rfl⟩
    · subst h
      cases hc : concatTables (α := PRRow) prFiles with
      | error e =>
        refine ⟨e, ?_⟩
        simp only [processData]
        rw [hc]
        rfl
      | ok prs =>
        refine ⟨"No objects to concatenate", ?_⟩
        simp only [processData]
        rw [hc]
        rfl
  rcases herr with ⟨msg, hmsg⟩
  exact ⟨⟨msg, hmsg⟩, by simp [savedCsv, hmsg]⟩

/-- Witness for `processData_no_files_error` at two empty file lists. -/
theorem processData_no_files_error_w :
    (∃ msg, processData ([] : List (List PRRow)) ([] : List (List GHIRow)) =
      Except.error msg) ∧
    savedCsv ([] : List (List PRRow)) ([] : List (List GHIRow)) = none :=
  processData_no_files_error [] [] (Or.inl rfl)

/-- Claim C2 counterexample: on 40 rows of constant PR 50, the centered
30-row rolling mean does not have exactly 14 leading and 14 trailing
undefined entries — the leading run of undefined entries has length 15. -/
theorem rolling30_counterexample :
    ¬ ((((rollingCenteredMean 30 (List.replicate 40 (50 : ℚ))).takeWhile
          Option.isNone).length = 14) ∧
       (((rollingCenteredMean 30 (List.replicate 40 (50 : ℚ))).reverse.takeWhile
          Option.isNone).length = 14)) := by
  decide

/-- On a constant series, each defined rolling-mean entry is the constant:
the full window sums to `w • c` and dividing by `w` returns `c`. -/
lemma rollingCenteredMean_replicate (w n : ℕ) (c : ℚ) (hw : 0 < w) :
    rollingCenteredMean w (List.replicate n c) =
      (List.range n).map fun i =>
        if w ≤ i + 1 + (w - 1) / 2 ∧ i + 1 + (w - 1) / 2 ≤ n then some c else none := by
  unfold rollingCenteredMean
  rw [List.length_replicate]
  apply List.map_congr_left
  intro i hi
  by_cases hcond : w ≤ i + 1 + (w - 1) / 2 ∧ i + 1 + (w - 1) / 2 ≤ n
  · rw [if_pos hcond, if_pos hcond]
    have hne : (w : ℚ) ≠ 0 := Nat.cast_ne_zero.mpr hw.ne'
    have hmin : min w (n - (i + 1 + (w - 1) / 2 - w)) = w := by omega
    rw [List.drop_replicate, List.take_replicate, hmin, List.sum_replicate,
      nsmul_eq_mul, mul_div_cancel_left₀ c hne]
  · rw [if_neg hcond, if_neg hcond]

/-- Claim C2 (amended): on 40 rows of constant PR 50, every defined entry
of the centered 30-row rolling mean equals 50 (there are 11 of them),
and the undefined entries are exactly the first 15 and the last 14
positions. -/
theorem rolling30_constant_series :
    (rollingCenteredMean 30 (List.replicate 40 (50 : ℚ))).filterMap id =
      List.replicate 11 (50 : ℚ) ∧
    ((rollingCenteredMean 30 (List.replicate 40 (50 : ℚ))).takeWhile
      Option.isNone).length = 15 ∧
    ((rollingCenteredMean 30 (List.replicate 40 (50 : ℚ))).reverse.takeWhile
      Option.isNone).length = 14 ∧
    (rollingCenteredMean 30 (List.replicate 40 (50 : ℚ))).countP Option.isNone = 29 ∧
    (rollingCenteredMean 30 (List.replicate 40 (50 : ℚ))).length = 40 := by
  rw [rollingCenteredMean_replicate 30 40 (50 : ℚ) (by norm_num)]
  decide

/-- Claim C4: every row's budget-line value is
`73.9 * (1 - 0.008) ^ ((Date - d0).days / 365.25)`, and the budget is
strictly decreasing in the year offset: `y1 < y2` gives
`budget y1 > budget y2`. -/
theorem budget_formula_strict_anti :
    (∀ d0 d : ℤ, budgetLine d0 d =
      73.9 * Real.rpow (1 - 0.008) (((d - d0 : ℤ) : ℝ) / 365.25)) ∧
    (∀ y1 y2 : ℝ, y1 < y2 → budget y2 < budget y1) := by
  constructor
  · intro d0 d
    rfl
  · intro y1 y2 h
    have h0 : (0 : ℝ) < 1 - 0.008 := by norm_num
    have h1 : (1 : ℝ) - 0.008 < 1 := by norm_num
    have hlt := Real.rpow_lt_rpow_of_exponent_gt h0 h1 h
    have h739 : (0 : ℝ) < 73.9 := by norm_num
    calc budget y2 = 73.9 * Real.rpow (1 - 0.008) y2 := rfl
    _ < 73.9 * Real.rpow (1 - 0.008) y1 := by
        exact mul_lt_mul_of_pos_left hlt h739
    _ = budget y1 := rfl

/-- Witness for `budget_formula_strict_anti` at year offsets 0 and 1. -/
theorem budget_formula_strict_anti_w :
    (0 : ℝ) < 1 ∧ budget 1 < budget 0 :=
  ⟨by norm_num, budget_formula_strict_anti.2 0 1 (by norm_num)⟩

/-- Membership in `uniqueAux`: exactly the list's members not yet seen. -/
lemma mem_uniqueAux (l : List ℤ) : ∀ (seen : List ℤ) (y : ℤ),
    y ∈ uniqueAux seen l ↔ y ∈ l ∧ y ∉ seen := by
  induction l with
  | nil => intro seen y; simp [uniqueAux]
  | cons a tl ih =>
    intro seen y
    by_cases ha : a ∈ seen
    · rw [uniqueAux, if_pos ha, ih]
      constructor
      · rintro ⟨hy, hs⟩
        exact ⟨List.mem_cons_of_mem a hy, hs⟩
      · rintro ⟨hy, hs⟩
        rcases List.mem_cons.mp hy with rfl | hy
        · exact absurd ha hs
        · exact ⟨hy, hs⟩
    · rw [uniqueAux, if_neg ha, List.mem_cons, ih]
      constructor
      · rintro (rfl | ⟨hy, hs⟩)
        · exact ⟨List.mem_cons_self y tl, ha⟩
        · refine ⟨List.mem_cons_of_mem a hy, fun h => hs (List.mem_cons_of_mem a h)⟩
      · rintro ⟨hy, hs⟩
        rcases List.mem_cons.mp hy with rfl | hy
        · exact Or.inl rfl
        · by_cases hya : y = a
          · exact Or.inl hya
          · refine Or.inr ⟨hy, fun h => ?_⟩
            rcases List.mem_cons.mp h with h | h
            · exact hya h
            · exact hs h

/-- Membership in `uniqueList` is membership in the input. -/
lemma mem_uniqueList (l : List ℤ) (y : ℤ) : y ∈ uniqueList l ↔ y ∈ l := by
  rw [uniqueList, mem_uniqueAux]
  simp

/-- `uniqueAux` returns a sublist of its input. -/
lemma uniqueAux_sublist (l : List ℤ) : ∀ seen : List ℤ, (uniqueAux seen l).Sublist l := by
  induction l with
  | nil => intro seen; simp [uniqueAux]
  | cons a tl ih =>
    intro seen
    by_cases ha : a ∈ seen
    · simp only [uniqueAux, if_pos ha]
      exact (ih seen).cons a
    · simp only [uniqueAux, if_neg ha]
      exact (ih (a :: seen)).cons₂ a

/-- `uniqueAux` has no duplicates. -/
lemma uniqueAux_nodup (l : List ℤ) : ∀ seen : List ℤ, (uniqueAux seen l).Nodup := by
  induction l with
  | nil => intro seen; simp [uniqueAux]
  | cons a tl ih =>
    intro seen
    by_cases ha : a ∈ seen
    · simp only [uniqueAux, if_pos ha]
      exact ih seen
    · simp only [uniqueAux, if_neg ha]
      refine List.nodup_cons.mpr ⟨fun hmem => ?_, ih (a :: seen)⟩
      exact ((mem_uniqueAux tl (a :: seen) a).mp hmem).2 (List.mem_cons_self a seen)

/-- `uniqueList` returns a duplicate-free sublist of its input. -/
lemma uniqueList_sublist (l : List ℤ) : (uniqueList l).Sublist l :=
  uniqueAux_sublist l []

/-- `uniqueList` has no duplicates. -/
lemma uniqueList_nodup (l : List ℤ) : (uniqueList l).Nodup :=
  uniqueAux_nodup l []

/-- Mapping first projections over a pairing map is the identity. -/
lemma map_fst_pair {β : Type} (l : List ℤ) (f : ℤ → β) :
    (l.map fun y => (y, f y)).map Prod.fst = l := by
  induction l with
  | nil => rfl
  | cons a tl ih => simp only [List.map_cons, ih]

/-- The years listed by `yearlyStats` are the distinct input years. -/
lemma statsYears_eq_uniqueList (rows : List YRow) :
    statsYears rows = uniqueList (rows.map (·.year)) := by
  unfold statsYears yearlyStats
  exact map_fst_pair _ _

/-- Claim C5: yearly exceedance counting groups by calendar year, counts
strict exceedances `PR > budget_line`, omits years with no rows (a year
appears in the output exactly when some row has that year), and on the
three-row example produces year 2020 with count 1 and year 2021 with
count 1.  A row with `PR = budget_line` is not counted, but its year is
still listed. -/
theorem yearlyStats_spec :
    yearlyStats [⟨2020, 80, 75⟩, ⟨2020, 70, 75⟩, ⟨2021, 90, 60⟩] =
      [(2020, 1), (2021, 1)] ∧
    (∀ (rows : List YRow) (y : ℤ),
      y ∈ (yearlyStats rows).map Prod.fst ↔ y ∈ rows.map (·.year)) ∧
    yearlyStats [⟨2020, 75, 75⟩] = [(2020, 0)] := by
  refine ⟨by decide, ?_, by decide⟩
  intro rows y
  have h := statsYears_eq_uniqueList rows
  unfold statsYears at h
  rw [h, mem_uniqueList]

/-- Claim C8 counterexample: when 2021 appears in the series before 2020,
the statistics box lists the years in that encounter order, which is not
ascending. -/
theorem statsYears_counterexample :
    statsYears [⟨2021, 90, 60⟩, ⟨2020, 80, 75⟩] = [2021, 2020] ∧
    ¬ List.Sorted (· ≤ ·) (statsYears [⟨2021, 90, 60⟩, ⟨2020, 80, 75⟩]) := by
  constructor
  · decide
  · intro hs
    rw [show statsYears [⟨2021, 90, 60⟩, ⟨2020, 80, 75⟩] = [2021, 2020] from by decide] at hs
    have := List.rel_of_sorted_cons hs 2020 (by decide)
    omega

/-- Claim C8 (amended): the statistics box lists the per-year counts in
order of each year's first appearance in the series; when the series'
years are already in ascending order, that listing is strictly
ascending. -/
theorem statsYears_first_appearance :
    (∀ rows : List YRow, statsYears rows = uniqueList (rows.map (·.year))) ∧
    (∀ rows : List YRow, (rows.map (·.year)).Sorted (· ≤ ·) →
      (statsYears rows).Sorted (· < ·)) := by
  refine ⟨statsYears_eq_uniqueList, ?_⟩
  intro rows hs
  rw [statsYears_eq_uniqueList]
  have hsub : (uniqueList (rows.map (·.year))).Sublist (rows.map (·.year)) :=
    uniqueList_sublist _
  have hle : (uniqueList (rows.map (·.year))).Sorted (· ≤ ·) := hs.sublist hsub
  have hnd : (uniqueList (rows.map (·.year))).Nodup := uniqueList_nodup _
  exact (hle.and hnd).imp fun hab => lt_of_le_of_ne hab.1 hab.2

/-- Witness for `statsYears_first_appearance` on an ascending two-row
series. -/
theorem statsYears_first_appearance_w :
    (([⟨2020, 80, 75⟩, ⟨2021, 90, 60⟩] : List YRow).map (·.year)).Sorted (· ≤ ·) ∧
    (statsYears [⟨2020, 80, 75⟩, ⟨2021, 90, 60⟩]).Sorted (· < ·) :=
  ⟨by decide, statsYears_first_appearance.2 [⟨2020, 80, 75⟩, ⟨2021, 90, 60⟩] (by decide)⟩

/-- The value of `latestDate` is the date of some row. -/
lemma latestDate_mem (rows : List MRow) (l : ℤ) (h : latestDate rows = some l) :
    ∃ r ∈ rows, r.date = l := by
  induction rows with
  | nil => exact absurd h (by simp [latestDate])
  | cons r tl ih =>
    rw [latestDate] at h
    cases htl : latestDate tl with
    | none =>
      rw [htl] at h
      exact ⟨r, List.mem_cons_self r tl, Option.some.inj h⟩
    | some m =>
      rw [htl] at h
      have hmax : max r.date m = l := Option.some.inj h
      rcases max_choice r.date m with hc | hc
      · have hrl : r.date = l := by rw [← hc]; exact hmax
        exact ⟨r, List.mem_cons_self r tl, hrl⟩
      · have hml : m = l := by rw [← hc]; exact hmax
        rcases ih (by rw [htl, hml]) with ⟨q, hq, hql⟩
        exact ⟨q, List.mem_cons_of_mem r hq, hql⟩

/-- The value of `minDate` is the date of some row. -/
lemma minDate_mem (rows : List MRow) (l : ℤ) (h : minDate rows = some l) :
    ∃ r ∈ rows, r.date = l := by
  induction rows with
  | nil => exact absurd h (by simp [minDate])
  | cons r tl ih =>
    rw [minDate] at h
    cases htl : minDate tl with
    | none =>
      rw [htl] at h
      exact ⟨r, List.mem_cons_self r tl, Option.some.inj h⟩
    | some m =>
      rw [htl] at h
      have hmin : min r.date m = l := Option.some.inj h
      rcases min_choice r.date m with hc | hc
      · have hrl : r.date = l := by rw [← hc]; exact hmin
        exact ⟨r, List.mem_cons_self r tl, hrl⟩
      · have hml : m = l := by rw [← hc]; exact hmin
        rcases ih (by rw [htl, hml]) with ⟨q, hq, hql⟩
        exact ⟨q, List.mem_cons_of_mem r hq, hql⟩

/-- Claim C6: each trailing `n`-day average is the arithmetic mean of PR
over the rows whose date exceeds `L - n` for `L` the maximum date; that
window always contains a row dated `L`, so it is non-empty; and with
zero rows in range (an empty frame) the result is the undefined marker
`none`, not zero and not an error. -/
theorem trailingAvg_spec :
    (∀ n : ℤ, trailingAvg n ([] : List MRow) = none) ∧
    (∀ (n : ℤ) (rows : List MRow) (l : ℤ), 0 < n → latestDate rows = some l →
      ((rows.filter fun r => l - n < r.date).map (·.pr)) ≠ [] ∧
      trailingAvg n rows =
        some ((((rows.filter fun r => l - n < r.date).map (·.pr)).sum) /
          ((((rows.filter fun r => l - n < r.date).map (·.pr)).length : ℕ) : ℚ))) := by
  constructor
  · intro n
    rfl
  · intro n rows l hn hl
    rcases latestDate_mem rows l hl with ⟨r, hr, hrl⟩
    have hfil : r ∈ rows.filter fun q => l - n < q.date := by
      rw [List.mem_filter]
      exact ⟨hr, by simp [hrl]; omega⟩
    have hne : ((rows.filter fun q => l - n < q.date).map (·.pr)) ≠ [] := by
      intro hemp
      rw [List.map_eq_nil_iff] at hemp
      rw [hemp] at hfil
      exact (List.not_mem_nil r) hfil
    refine ⟨hne, ?_⟩
    simp only [trailingAvg, hl]
    rw [meanQ, if_neg (fun hemp => hne (List.isEmpty_iff.mp hemp))]

/-- Witness for `trailingAvg_spec` on a one-row series with window 7. -/
theorem trailingAvg_spec_w :
    (0 : ℤ) < 7 ∧ latestDate [⟨0, 5, 50⟩] = some 0 ∧
    ((([⟨0, 5, 50⟩] : List MRow).filter fun r => (0 : ℤ) - 7 < r.date).map (·.pr)) ≠ [] ∧
    trailingAvg 7 [⟨0, 5, 50⟩] =
      some ((((([⟨0, 5, 50⟩] : List MRow).filter fun r => (0 : ℤ) - 7 < r.date).map
          (·.pr)).sum) /
        (((((([⟨0, 5, 50⟩] : List MRow).filter fun r => (0 : ℤ) - 7 < r.date).map
          (·.pr)).length : ℕ)) : ℚ)) :=
  ⟨by decide, rfl, (trailingAvg_spec.2 7 [⟨0, 5, 50⟩] 0 (by decide) rfl).1,
    (trailingAvg_spec.2 7 [⟨0, 5, 50⟩] 0 (by decide) rfl).2⟩

/-- Claim C7: the optional inclusive date-range restriction is applied
before any derived computation — the rolling mean, the minimum date
`d0` anchoring the budget line, and the trailing averages are all taken
over the filtered subset; in particular, a reported `d0` lies inside
the supplied range. -/
theorem createVizStats_filter_first (df : List MRow) (s e : Option ℤ) :
    (createVizStats df s e).pr30 =
      rollingCenteredMean 30 ((dateFilter df s e).map (·.pr)) ∧
    (createVizStats df s e).d0 = minDate (dateFilter df s e) ∧
    (createVizStats df s e).avg7 = trailingAvg 7 (dateFilter df s e) ∧
    (createVizStats df s e).avg30 = trailingAvg 30 (dateFilter df s e) ∧
    (createVizStats df s e).avg60 = trailingAvg 60 (dateFilter df s e) ∧
    (∀ sd ed d, s = some sd → e = some ed →
      (createVizStats df s e).d0 = some d → sd ≤ d ∧ d ≤ ed) := by
  refine ⟨rfl, rfl, rfl, rfl, rfl, ?_⟩
  rintro sd ed d rfl rfl hd
  have hd' : minDate (dateFilter df (some sd) (some ed)) = some d := hd
  rcases minDate_mem _ _ hd' with ⟨r, hr, hrd⟩
  have hr' : r ∈ (df.filter fun q => sd ≤ q.date).filter fun q => q.date ≤ ed := hr
  rcases List.mem_filter.mp hr' with ⟨hr1, hred⟩
  rcases List.mem_filter.mp hr1 with ⟨_, hrsd⟩
  constructor
  · have : sd ≤ r.date := by simpa using hrsd
    omega
  · have : r.date ≤ ed := by simpa using hred
    omega

/-- Witness for `createVizStats_filter_first` on a one-row frame with the
range 0 to 10. -/
theorem createVizStats_filter_first_w :
    (createVizStats [⟨5, 1, 50⟩] (some 0) (some 10)).d0 = some 5 ∧
    (0 : ℤ) ≤ 5 ∧ (5 : ℤ) ≤ 10 :=
  ⟨rfl, (createVizStats_filter_first [⟨5, 1, 50⟩] (some 0) (some 10)).2.2.2.2.2
    0 10 5 rfl rfl rfl⟩

/-- The merge's size is the sum, over PR rows, of the matching GHI rows. -/
lemma innerMerge_length (prs : List PRRow) (ghis : List GHIRow) :
    (innerMerge prs ghis).length =
      (prs.map fun p => (ghis.filter fun g => g.date = p.date).length).sum := by
  induction prs with
  | nil => rfl
  | cons p tl ih =>
    simp only [innerMerge, List.flatMap_cons, List.length_append, List.length_map,
      List.map_cons, List.sum_cons] at ih ⊢
    omega

/-- Filtering by one key value of a duplicate-free key column keeps at
most one row. -/
lemma filter_key_length_le_one {α : Type} (l : List α) (f : α → ℤ) (d : ℤ) :
    (l.map f).Nodup → (l.filter fun a => f a = d).length ≤ 1 := by
  induction l with
  | nil => intro _; simp
  | cons a tl ih =>
    intro h
    rw [List.map_cons, List.nodup_cons] at h
    obtain ⟨had, htl⟩ := h
    by_cases hd : f a = d
    · rw [List.filter_cons_of_pos (by simp [hd])]
      have hz : (tl.filter fun b => f b = d).length = 0 := by
        rw [List.length_eq_zero, List.filter_eq_nil_iff]
        intro b hb
        simp only [decide_eq_true_eq]
        intro hbd
        exact had (by rw [hd, ← hbd]; exact List.mem_map_of_mem f hb)
      rw [List.length_cons, hz]
    · rw [List.filter_cons_of_neg (by simp [hd])]
      exact ih htl

/-- A sum of map values each at most one is at most the list length. -/
lemma sum_le_length {α : Type} (l : List α) (f : α → ℕ) (h : ∀ a ∈ l, f a ≤ 1) :
    (l.map f).sum ≤ l.length := by
  induction l with
  | nil => simp
  | cons a tl ih =>
    simp only [List.map_cons, List.sum_cons, List.length_cons]
    have h1 := h a (List.mem_cons_self a tl)
    have h2 := ih fun b hb => h b (List.mem_cons_of_mem a hb)
    omega

/-- Sums of pointwise sums split. -/
lemma sum_map_add {α : Type} (l : List α) (f h : α → ℕ) :
    (l.map fun a => f a + h a).sum = (l.map f).sum + (l.map h).sum := by
  induction l with
  | nil => rfl
  | cons a tl ih =>
    simp only [List.map_cons, List.sum_cons, ih]
    omega

/-- Summing per-row match indicators counts the matching rows. -/
lemma sum_ite_eq_filter_length {α : Type} (l : List α) (f : α → ℤ) (d : ℤ) :
    (l.map fun a => if f a = d then 1 else 0).sum =
      (l.filter fun a => f a = d).length := by
  induction l with
  | nil => rfl
  | cons a tl ih =>
    by_cases hd : f a = d
    · rw [List.map_cons, List.sum_cons, if_pos hd,
        List.filter_cons_of_pos (by simp [hd]), List.length_cons, ih]
      omega
    · rw [List.map_cons, List.sum_cons, if_neg hd,
        List.filter_cons_of_neg (by simp [hd]), ih]
      omega

/-- Double counting the matched pairs of the join: summing matches per PR
row equals summing matches per GHI row. -/
lemma merge_sum_swap (prs : List PRRow) (ghis : List GHIRow) :
    (prs.map fun p => (ghis.filter fun g => g.date = p.date).length).sum =
      (ghis.map fun g => (prs.filter fun p => p.date = g.date).length).sum := by
  induction prs with
  | nil =>
    simp only [List.map_nil, List.sum_nil, List.filter_nil, List.length_nil]
    induction ghis with
    | nil => rfl
    | cons g tl ihg =>
      simp only [List.map_cons, List.sum_cons, ← ihg]
      omega
  | cons p tl ih =>
    simp only [List.map_cons, List.sum_cons, ih]
    have hcons : ghis.map (fun g => ((p :: tl).filter fun q => q.date = g.date).length) =
        ghis.map (fun g =>
          (if p.date = g.date then 1 else 0) + (tl.filter fun q => q.date = g.date).length) := by
      apply List.map_congr_left
      intro g _
      by_cases hd : p.date = g.date
      · rw [List.filter_cons_of_pos (by simp [hd]), if_pos hd, List.length_cons]
        omega
      · rw [List.filter_cons_of_neg (by simp [hd]), if_neg hd]
        omega
    rw [hcons, sum_map_add]
    have hswap : ghis.map (fun g => if p.date = g.date then 1 else 0) =
        ghis.map (fun g => if g.date = p.date then 1 else 0) := by
      apply List.map_congr_left
      intro g _
      by_cases hd : g.date = p.date
      · rw [if_pos hd, if_pos hd.symm]
      · rw [if_neg hd, if_neg fun hh => hd hh.symm]
    rw [hswap, sum_ite_eq_filter_length]

/-- With duplicate-free GHI dates the merge has at most one output row per
PR row. -/
lemma innerMerge_length_le_left (prs : List PRRow) (ghis : List GHIRow)
    (hgn : (ghis.map (·.date)).Nodup) :
    (innerMerge prs ghis).length ≤ prs.length := by
  rw [innerMerge_length]
  exact sum_le_length _ _ fun p _ => filter_key_length_le_one ghis (·.date) p.date hgn

/-- With duplicate-free PR dates the merge has at most one output row per
GHI row. -/
lemma innerMerge_length_le_right (prs : List PRRow) (ghis : List GHIRow)
    (hpn : (prs.map (·.date)).Nodup) :
    (innerMerge prs ghis).length ≤ ghis.length := by
  rw [innerMerge_length, merge_sum_swap]
  exact sum_le_length _ _ fun g _ => filter_key_length_le_one prs (·.date) g.date hpn

/-- Every merged row's date occurs in both input date columns. -/
lemma innerMerge_mem_dates (prs : List PRRow) (ghis : List GHIRow) (m : MRow)
    (hm : m ∈ innerMerge prs ghis) :
    m.date ∈ prs.map (·.date) ∧ m.date ∈ ghis.map (·.date) := by
  simp only [innerMerge, List.mem_flatMap, List.mem_map, List.mem_filter] at hm
  obtain ⟨p, hp, g, ⟨hg, hgd⟩, rfl⟩ := hm
  have hgd' : g.date = p.date := by simpa using hgd
  exact ⟨List.mem_map_of_mem _ hp, hgd' ▸ List.mem_map_of_mem _ hg⟩

/-- Claim C1 counterexample: two two-row inputs sharing one duplicated
date Cartesian-expand under the inner merge — four output rows exceed
the minimum input size of two, so the size bound of the claim fails as
stated. -/
theorem innerMerge_size_counterexample :
    ([⟨0, 1⟩, ⟨0, 2⟩] : List PRRow) ≠ [] ∧ ([⟨0, 3⟩, ⟨0, 4⟩] : List GHIRow) ≠ [] ∧
    (0 : ℤ) ∈ ([⟨0, 1⟩, ⟨0, 2⟩] : List PRRow).map (·.date) ∧
    (0 : ℤ) ∈ ([⟨0, 3⟩, ⟨0, 4⟩] : List GHIRow).map (·.date) ∧
    (innerMerge [⟨0, 1⟩, ⟨0, 2⟩] [⟨0, 3⟩, ⟨0, 4⟩]).length = 4 ∧
    ¬ ((innerMerge [⟨0, 1⟩, ⟨0, 2⟩] [⟨0, 3⟩, ⟨0, 4⟩]).length ≤
        min ([⟨0, 1⟩, ⟨0, 2⟩] : List PRRow).length
          ([⟨0, 3⟩, ⟨0, 4⟩] : List GHIRow).length) := by
  decide

/-- Claim C1 (amended): for non-empty PR and GHI inputs sharing at least
one date and whose dates are pairwise distinct within each input, the
inner merge has at most `min (card PR) (card GHI)` rows, and — with no
distinctness assumption needed — every merged row's date appears in
both inputs. -/
theorem innerMerge_size_mem (prs : List PRRow) (ghis : List GHIRow)
    (hp : prs ≠ []) (hg : ghis ≠ [])
    (hshare : ∃ d, d ∈ prs.map (·.date) ∧ d ∈ ghis.map (·.date))
    (hpn : (prs.map (·.date)).Nodup) (hgn : (ghis.map (·.date)).Nodup) :
    (innerMerge prs ghis).length ≤ min prs.length ghis.length ∧
    ∀ m ∈ innerMerge prs ghis,
      m.date ∈ prs.map (·.date) ∧ m.date ∈ ghis.map (·.date) :=
  ⟨le_min (innerMerge_length_le_left prs ghis hgn)
      (innerMerge_length_le_right prs ghis hpn),
    fun m hm => innerMerge_mem_dates prs ghis m hm⟩

/-- Witness for `innerMerge_size_mem` on one-row inputs sharing date 0. -/
theorem innerMerge_size_mem_w :
    ([⟨0, 50⟩] : List PRRow) ≠ [] ∧
    (innerMerge [⟨0, 50⟩] [⟨0, 5⟩]).length ≤
      min ([⟨0, 50⟩] : List PRRow).length ([⟨0, 5⟩] : List GHIRow).length :=
  ⟨by decide,
    (innerMerge_size_mem [⟨0, 50⟩] [⟨0, 5⟩] (by decide) (by decide)
      ⟨0, by decide, by decide⟩ (by decide) (by decide)).1⟩

end Solar
